import Mathlib

/-!
# Verification of the `multipart-async` server core

A shallow embedding of the server-side `multipart/form-data` parser:

* the UTF-8 text-field decoder (`src/server/field/text.rs`), including the
  Rust `str::from_utf8` validation semantics (`valid_up_to`) it relies on;
* the field-lifecycle controller (`src/server/mod.rs`): `Multipart::with_body`,
  `Multipart::poll_field_head`, and the `MultipartStream`/`Inner`/`FieldData`
  exclusive-access protocol (reference counting + drop notification);
* the boundary scanner (`BoundaryFinder`).  Its source file
  (`src/server/boundary.rs`) is not present in the repository snapshot, so it is
  modelled from the specification's algorithm description (sliding lookback of
  at most `boundary.len()` trailing bytes plus substring search).

Bytes are modelled as `Nat` values; `usize` arithmetic that can wrap is made
explicit with `% 2 ^ 64`.  Rust panics are modelled as an explicit outcome.
-/

namespace MultipartAsync

/-- A body chunk: an owned, splittable byte buffer (`BodyChunk`), modelled as a
list of byte values. -/
abbrev Chunk := List Nat

/-- `2 ^ 64`, the modulus of Rust's `usize` arithmetic on 64-bit targets. -/
def USIZE : Nat := 2 ^ 64

/-- Wrapping `usize` subtraction (release-mode behaviour of `a - b`). -/
def wrapSub (a b : Nat) : Nat := (a + USIZE - b % USIZE) % USIZE

/-! ## UTF-8 validation (Rust core semantics)

`text.rs` carries the `UTF8_CHAR_WIDTH` table lifted from the Rust standard
library and calls `str::from_utf8`, whose error reports the byte length of the
longest valid prefix (`Utf8Error::valid_up_to`).  Both are embedded here. -/

/-- Byte width of a UTF-8 sequence determined by its lead byte; `0` marks a
byte that cannot start a sequence.  From the `UTF8_CHAR_WIDTH` table in
`text.rs`. -/
def utf8CharWidth (b : Nat) : Nat :=
  if b ≤ 0x7F then 1
  else if b ≤ 0xC1 then 0
  else if b ≤ 0xDF then 2
  else if b ≤ 0xEF then 3
  else if b ≤ 0xF4 then 4
  else 0

/-- Is `b` a UTF-8 continuation byte (`0x80 ..= 0xBF`)? -/
def contB (b : Nat) : Bool := decide (0x80 ≤ b) && decide (b ≤ 0xBF)

/-- Admissible second byte of a three-byte sequence led by `b0` (Rust core
`run_utf8_validation`). -/
def utf8Snd3 (b0 b1 : Nat) : Bool :=
  if b0 = 0xE0 then decide (0xA0 ≤ b1) && decide (b1 ≤ 0xBF)
  else if b0 = 0xED then decide (0x80 ≤ b1) && decide (b1 ≤ 0x9F)
  else contB b1

/-- Admissible second byte of a four-byte sequence led by `b0`. -/
def utf8Snd4 (b0 b1 : Nat) : Bool :=
  if b0 = 0xF0 then decide (0x90 ≤ b1) && decide (b1 ≤ 0xBF)
  else if b0 = 0xF4 then decide (0x80 ≤ b1) && decide (b1 ≤ 0x8F)
  else contB b1

/-- Byte length of the longest prefix that is valid UTF-8: the semantics of
`str::from_utf8(..).err().map(Utf8Error::valid_up_to)`, which also reports the
start of a trailing incomplete sequence. -/
def utf8ValidUpTo : List Nat → Nat
  | [] => 0
  | b0 :: r0 =>
    if b0 ≤ 0x7F then 1 + utf8ValidUpTo r0
    else if 0xC2 ≤ b0 ∧ b0 ≤ 0xDF then
      match r0 with
      | [] => 0
      | b1 :: r1 => if contB b1 then 2 + utf8ValidUpTo r1 else 0
    else if 0xE0 ≤ b0 ∧ b0 ≤ 0xEF then
      match r0 with
      | [] => 0
      | b1 :: r1 =>
        if utf8Snd3 b0 b1 then
          match r1 with
          | [] => 0
          | b2 :: r2 => if contB b2 then 3 + utf8ValidUpTo r2 else 0
        else 0
    else if 0xF0 ≤ b0 ∧ b0 ≤ 0xF4 then
      match r0 with
      | [] => 0
      | b1 :: r1 =>
        if utf8Snd4 b0 b1 then
          match r1 with
          | [] => 0
          | b2 :: r2 =>
            if contB b2 then
              match r2 with
              | [] => 0
              | b3 :: r3 => if contB b3 then 4 + utf8ValidUpTo r3 else 0
            else 0
        else 0
    else 0

/-- Does `str::from_utf8` succeed on these bytes? -/
def utf8Valid (bs : List Nat) : Bool := utf8ValidUpTo bs == bs.length

/-! ## The text-field decoder (`ReadTextField`, `src/server/field/text.rs`)

A `String` is represented by the list of its UTF-8 bytes: the decoder only ever
appends byte slices it has validated, so `push_str` is byte-list append. -/

/-- The state of `ReadTextField` (field for field from `text.rs`).  `stream` is
the `Option<FieldData>`; the field data itself is the list of body chunks it
will yield. -/
structure ReadTextField where
  stream : Option (List Chunk)
  accum : List Nat
  prev_chunk : Option (List Nat)
  limit : Nat
  headers : String
deriving DecidableEq

/-- `DEFAULT_LIMIT` from `text.rs`. -/
def DEFAULT_LIMIT : Nat := 65536

/-- `SOFT_MAX_LIMIT` from `text.rs`. -/
def SOFT_MAX_LIMIT : Nat := 16777216

/-- `read_text` from `text.rs`: fresh decoder with the default limit. -/
def read_text (headers : String) (data : List Chunk) : ReadTextField :=
  { stream := some data, accum := [], prev_chunk := none,
    limit := DEFAULT_LIMIT, headers := headers }

/-- Modelled from the spec: `ReadTextField::set_limit` replaces the byte-length
limit with the caller's value.  The body in `text.rs` delegates to a
`fold_text` member that the struct in this snapshot does not have (a stale
historical variant), so the setter is taken from its documented contract:
"Set the length limit, in bytes, for the collected text." -/
def ReadTextField.setLimit (st : ReadTextField) (l : Nat) : ReadTextField :=
  { st with limit := l }

/-- Modelled from the spec: `ReadTextField::limit_soft_max` sets the limit to
the documented soft ceiling `SOFT_MAX_LIMIT`; the delegate it names is missing
from the snapshot exactly as for `set_limit`. -/
def ReadTextField.limitSoftMax (st : ReadTextField) : ReadTextField :=
  { st with limit := SOFT_MAX_LIMIT }

/-- Outcome of processing one chunk inside `ReadTextField::poll`'s loop. -/
inductive FeedOut
  | next (st : ReadTextField)
  | err (msg : String)
  | panicked (msg : String)
deriving DecidableEq

/-- The no-pending-sequence part of the loop body of `ReadTextField::poll`
(`text.rs` lines 165-188): limit check, then UTF-8 validation; on failure the
suffix is held back only when `valid_up_to() > len - 4` — with `len - 4`
computed in wrapping `usize` arithmetic, as in a release build (a debug build
panics on the underflow when `len < 4`). -/
def feedNoPrev (st : ReadTextField) (chunk : Chunk) : FeedOut :=
  if st.accum.length + chunk.length > st.limit then
    .err "text field exceeded limit"
  else if utf8Valid chunk then
    .next { st with accum := st.accum ++ chunk }
  else if utf8ValidUpTo chunk > wrapSub chunk.length 4 then
    .next { st with accum := st.accum ++ chunk.take (utf8ValidUpTo chunk),
                    prev_chunk := some (chunk.drop (utf8ValidUpTo chunk)) }
  else
    .err "invalid UTF-8 sequence"

/-- One iteration of the loop in `ReadTextField::poll` (`text.rs` lines
128-189) on a freshly polled chunk: recombine a held-back partial sequence if
any, then process the remainder.  The `copy_from_slice` into `buf[prev.len()..]`
copies `4 - prev.len()` destination bytes from a `needed_len`-byte source;
Rust panics when the two lengths differ (they agree only for a 4-byte
sequence), and that panic is modelled explicitly. -/
def feedChunk (st : ReadTextField) (chunk : Chunk) : FeedOut :=
  match st.prev_chunk with
  | none => feedNoPrev st chunk
  | some prev =>
    match prev with
    | [] => .panicked "index out of bounds"
    | p0 :: _ =>
      let needed := wrapSub (utf8CharWidth p0) prev.length
      if chunk.length < needed then
        .err "got a chunk smaller than needed to finish decoding this UTF-8 sequence"
      else if st.accum.length + prev.length + chunk.length > st.limit then
        .err "text field exceeded limit"
      else if prev.length > 4 then
        .panicked "range start out of bounds"
      else if 4 - prev.length ≠ needed then
        .panicked "copy_from_slice length mismatch"
      else if utf8Valid (prev ++ chunk.take needed) then
        feedNoPrev { st with accum := st.accum ++ (prev ++ chunk.take needed),
                             prev_chunk := none }
          (chunk.drop needed)
      else
        .err "invalid UTF-8 sequence"

/-- Run the poll loop over a list of body chunks. -/
def foldChunks (st : ReadTextField) : List Chunk → FeedOut
  | [] => .next st
  | c :: cs =>
    match feedChunk st c with
    | .next st' => foldChunks st' cs
    | .err m => .err m
    | .panicked m => .panicked m

/-- `ReadTextField::try_take_string`: a still-pending partial sequence at
end-of-body is a hard error; otherwise the accumulator is taken (and replaced
by the empty string). -/
def tryTakeString (st : ReadTextField) : Except String (List Nat × ReadTextField) :=
  match st.prev_chunk with
  | some _ => .error "stream terminated with incomplete UTF-8 sequence"
  | none => .ok (st.accum, { st with accum := [] })

/-- The result of reading a field to text (`TextField`). -/
structure TextField where
  headers : String
  text : List Nat
deriving DecidableEq

/-- Outcome of one `ReadTextField::poll` call. -/
inductive TextPoll
  | ready (tf : TextField) (st : ReadTextField)
  | err (msg : String)
  | panicked (msg : String)
deriving DecidableEq

/-- `ReadTextField::poll` (`text.rs` lines 123-201): panics if called again
after yielding; otherwise drains the body chunks through the loop, then takes
the accumulated string and drops the stream (`self.stream = None`) so the
parent `Multipart` can move on. -/
def pollReadText (st : ReadTextField) : TextPoll :=
  match st.stream with
  | none => .panicked "`ReadTextField::poll()` called again after yielding value"
  | some chunks =>
    match foldChunks st chunks with
    | .err m => .err m
    | .panicked m => .panicked m
    | .next st' =>
      match tryTakeString st' with
      | .error m => .err m
      | .ok (text, st'') =>
        .ready { headers := st''.headers, text := text } { st'' with stream := none }

/-- The bytes a held-back partial sequence contributes (empty when none is
pending). -/
def prevB : Option (List Nat) → List Nat
  | none => []
  | some p => p

/-! ## The field-head driver (`Multipart::poll_field_head`, `src/server/mod.rs`)

`poll_field_head` sequences two sub-operations: `BoundaryFinder::consume_boundary`
and `ReadHeaders::read_headers`.  Their implementations live in
`src/server/boundary.rs` and `src/server/field/headers.rs`, which are absent
from this snapshot, so their outcomes are supplied by oracles; the oracle for
`consume_boundary` keeps the spec-mandated terminal flag.  The control flow of
`poll_field_head` itself is translated from `server/mod.rs` lines 193-204. -/

/-- Non-blocking poll outcome (`Poll`/`Async` of futures 0.1): ready,
not-yet-available, or failed. -/
inductive Async (α : Type)
  | ready (val : α)
  | notReady
  | failed (msg : String)
deriving DecidableEq

/-- The headers of one field; only the mandatory name is modelled. -/
structure FieldHeaders where
  name : String
deriving DecidableEq

/-- One scripted outcome of a `consume_boundary` attempt. -/
inductive BoundaryStep
  | more
  | last
  | pending
  | broken (msg : String)
deriving DecidableEq

/-- Modelled from the spec: the observable behaviour of the missing
`BoundaryFinder::consume_boundary` (`src/server/boundary.rs` is not in the
snapshot).  §3 gives its state "a flag for whether the terminal double-dash
marker has been seen" and §4.3 makes the terminal state absorbing: once the
scanner reports no more fields it does so permanently.  Pre-terminal outcomes
are scripted by a step list. -/
structure BoundaryOracle where
  steps : List BoundaryStep
  terminal : Bool
deriving DecidableEq

/-- One `consume_boundary` call on the oracle: permanently `false` after the
terminal marker, otherwise the next scripted outcome (`more` ↦ `Ready(true)`,
`last` ↦ `Ready(false)` setting the terminal flag, `pending` ↦ `NotReady`). -/
def BoundaryOracle.consume : BoundaryOracle → Async Bool × BoundaryOracle
  | ⟨steps, true⟩ => (.ready false, ⟨steps, true⟩)
  | ⟨[], false⟩ => (.notReady, ⟨[], false⟩)
  | ⟨.more :: r, false⟩ => (.ready true, ⟨r, false⟩)
  | ⟨.last :: r, false⟩ => (.ready false, ⟨r, true⟩)
  | ⟨.pending :: r, false⟩ => (.notReady, ⟨r, false⟩)
  | ⟨.broken m :: r, false⟩ => (.failed m, ⟨r, false⟩)

/-- Modelled from the spec: outcomes of the missing
`ReadHeaders::read_headers` (`src/server/field/headers.rs` is not in the
snapshot), scripted as a list; an empty script stays `NotReady`. -/
structure HeaderOracle where
  steps : List (Async (Option FieldHeaders))
deriving DecidableEq

/-- One `read_headers` call on the oracle. -/
def HeaderOracle.read : HeaderOracle → Async (Option FieldHeaders) × HeaderOracle
  | ⟨[]⟩ => (.notReady, ⟨[]⟩)
  | ⟨s :: r⟩ => (s, ⟨r⟩)

/-- The state of `Multipart` that `poll_field_head` drives: the boundary
scanner, the header reader, and the `consumed` flag. -/
structure MultipartCtl where
  stream : BoundaryOracle
  read_hdr : HeaderOracle
  consumed : Bool
deriving DecidableEq

/-- Which sub-operation `poll_field_head` invoked, in order (for stating that a
resumed call skips `consume_boundary`). -/
inductive HeadOp
  | consumeBoundaryOp
  | readHeadersOp
deriving DecidableEq

/-- The `read_headers` step of `poll_field_head`: on `Ready` the `consumed`
flag is reset (`self.consumed = false`); on `NotReady` or error it is kept, so
a later call resumes here. -/
def readHeadersPart (m : MultipartCtl) (ops : List HeadOp) :
    Async (Option FieldHeaders) × MultipartCtl × List HeadOp :=
  match m.read_hdr.read with
  | (.notReady, h') => (.notReady, { m with read_hdr := h' }, ops ++ [.readHeadersOp])
  | (.failed e, h') => (.failed e, { m with read_hdr := h' }, ops ++ [.readHeadersOp])
  | (.ready res, h') =>
    (.ready res, { m with read_hdr := h', consumed := false }, ops ++ [.readHeadersOp])

/-- `Multipart::poll_field_head` (`server/mod.rs` lines 193-204):
`self.consumed = self.consumed || try_ready!(self.stream.consume_boundary());`
— the `||` short-circuits, so a call with `consumed` already set goes straight
to the header read; `Ready(false)` ends the stream with `None`. -/
def pollFieldHead (m : MultipartCtl) :
    Async (Option FieldHeaders) × MultipartCtl × List HeadOp :=
  if m.consumed then readHeadersPart m []
  else
    match m.stream.consume with
    | (.notReady, bf') => (.notReady, { m with stream := bf' }, [.consumeBoundaryOp])
    | (.failed e, bf') => (.failed e, { m with stream := bf' }, [.consumeBoundaryOp])
    | (.ready b, bf') =>
      if b then readHeadersPart { m with stream := bf', consumed := true } [.consumeBoundaryOp]
      else (.ready none, { m with stream := bf', consumed := false }, [.consumeBoundaryOp])

/-! ## The field stream (`MultipartStream`, `Inner`, `FieldData`)

`MultipartStream::poll` (`server/mod.rs` lines 237-265) advances only when
`Rc::get_mut(&mut self.inner)` succeeds, i.e. when the strong count of the
shared `Inner` is exactly 1; a yielded `Field` clones the `Rc` (count 2), and
`FieldData`'s `Drop` impl (`field/mod.rs` lines 143-147) releases it and calls
`Inner::notify_task`.  The `Rc` strong count and the drop hook are modelled
explicitly; tasks are identifiers. -/

/-- The whole-system state: the shared `Inner` (its `Multipart` and saved
task) plus the strong count of the `Rc<Inner>` and the log of notified tasks. -/
structure StreamSys where
  multi : MultipartCtl
  waiting : Option Nat
  strong : Nat
  notified : List Nat
deriving DecidableEq

/-- Outcome of one `MultipartStream::poll`. -/
inductive StreamPoll
  | gotField (h : FieldHeaders)
  | atEnd
  | notReady
  | failed (msg : String)
deriving DecidableEq

/-- `MultipartStream::poll`: `Rc::get_mut` succeeds only with strong count 1;
then `poll_field_head` runs and a yielded field clones the `Rc` (count + 1).
Otherwise a `Field` is still alive: save the current task and return
`NotReady`. -/
def streamPoll (s : StreamSys) (task : Nat) : StreamPoll × StreamSys :=
  if s.strong = 1 then
    match pollFieldHead s.multi with
    | (.ready (some h), m', _) => (.gotField h, { s with multi := m', strong := s.strong + 1 })
    | (.ready none, m', _) => (.atEnd, { s with multi := m' })
    | (.notReady, m', _) => (.notReady, { s with multi := m' })
    | (.failed e, m', _) => (.failed e, { s with multi := m' })
  else
    (.notReady, { s with waiting := some task })

/-- Destruction of the outstanding `FieldData` (`impl Drop for FieldData`):
the `Rc<Inner>` it holds is released (strong count - 1) and
`Inner::notify_task` wakes the saved task (`self.waiting.take().map(|t| t.notify())`).
A no-op when no field is outstanding — there is nothing to drop. -/
def dropFieldData (s : StreamSys) : StreamSys :=
  if 2 ≤ s.strong then
    { s with strong := s.strong - 1, waiting := none,
             notified := s.notified ++ s.waiting.toList }
  else s

/-- An externally scheduled event: a poll by some task, or the consumer
destroying the current `FieldData`. -/
inductive SysOp
  | doPoll (task : Nat)
  | doDrop
deriving DecidableEq

/-- Run a sequence of events. -/
def runOps (s : StreamSys) : List SysOp → StreamSys
  | [] => s
  | .doPoll t :: rest => runOps (streamPoll s t).2 rest
  | .doDrop :: rest => runOps (dropFieldData s) rest

/-- A fresh `MultipartStream` (`Multipart::into_stream`): one `Rc` reference,
no saved task. -/
def initSys (m : MultipartCtl) : StreamSys :=
  { multi := m, waiting := none, strong := 1, notified := [] }

/-- How many `FieldData` handles are alive: every one holds one strong
reference beyond the stream's own. -/
def StreamSys.liveFields (s : StreamSys) : Nat := s.strong - 1

/-! ## The boundary scanner (`BoundaryFinder`)

`src/server/boundary.rs` is not in the snapshot; the scanner is modelled from
the spec, §4.4: "maintain a sliding lookback of up to `boundary.len()` trailing
bytes from the previous read so a delimiter split across two inbound chunks is
still detected; use a substring search over the concatenation of lookback +
newly arrived chunk.  On partial match at the tail of a chunk, emit only the
confirmed-non-boundary prefix and retain the ambiguous suffix for the next
read.  On no match, emit the whole chunk ...; on full match, split the chunk
before the delimiter and transition to boundary-consuming mode." -/

/-- Index of the first occurrence of `pat` as a contiguous sublist of `s`. -/
def firstOccur? (pat : List Nat) : List Nat → Option Nat
  | [] => if pat.isPrefixOf [] then some 0 else none
  | b :: t =>
    if pat.isPrefixOf (b :: t) then some 0
    else (firstOccur? pat t).map (fun n => n + 1)

/-- Length of the longest suffix of `s` that is a prefix of `pat` (the
ambiguous tail the scanner must retain). -/
def maxPS (pat : List Nat) : List Nat → Nat
  | [] => 0
  | b :: t => if (b :: t).isPrefixOf pat then (b :: t).length else maxPS pat t

/-- The bytes `--` (ASCII hyphens). -/
def dashdash : List Nat := [0x2D, 0x2D]

/-- The bytes `\r\n`. -/
def crlfBytes : List Nat := [0x0D, 0x0A]

/-- Modelled from the spec: `BoundaryFinder` state (§3): the boundary, the
inbound chunk sequence, the lookback buffer of not-yet-confirmed bytes, a flag
for "positioned at a located boundary" and the terminal-marker flag. -/
structure BoundaryFinder where
  boundary : List Nat
  source : List Chunk
  lookback : List Nat
  found : Bool
  atEnd : Bool
deriving DecidableEq

/-- `BoundaryFinder::new`: store the (already `--`-prefixed) boundary, empty
lookback. -/
def BoundaryFinder.new (stream : List Chunk) (boundary : List Nat) : BoundaryFinder :=
  { boundary := boundary, source := stream, lookback := [], found := false, atEnd := false }

/-- All bytes the scanner has not yet emitted or discarded. -/
def BoundaryFinder.rem (st : BoundaryFinder) : List Nat :=
  st.lookback ++ st.source.flatten

/-- Modelled from the spec: one `body_chunk()` call.  At a located boundary it
yields `None` (zero remaining body bytes).  Otherwise: pull the next inbound
chunk, search lookback + chunk for the boundary; on a full match emit the bytes
before it (or `None` if there are none) and move to boundary-consuming mode; on
no match emit everything but the longest ambiguous suffix, which becomes the
new lookback (reading on when nothing is emittable).  A stream that ends before
any boundary is malformed. -/
def bodyRead (st : BoundaryFinder) : Except String (Option Chunk × BoundaryFinder) :=
  if st.found then .ok (none, st)
  else
    match h : st.source with
    | [] => .error "stream ended before a boundary was found"
    | c :: rest =>
      let s := st.lookback ++ c
      match firstOccur? st.boundary s with
      | some i =>
        if i = 0 then
          .ok (none, ⟨st.boundary, rest, s.drop i, true, st.atEnd⟩)
        else
          .ok (some (s.take i), ⟨st.boundary, rest, s.drop i, true, st.atEnd⟩)
      | none =>
        let k := maxPS st.boundary s
        if s.length - k = 0 then
          bodyRead ⟨st.boundary, rest, s.drop (s.length - k), false, st.atEnd⟩
        else
          .ok (some (s.take (s.length - k)),
               ⟨st.boundary, rest, s.drop (s.length - k), false, st.atEnd⟩)
termination_by st.source.length
decreasing_by simp [h]

/-- Repeated `body_chunk()` calls from body mode until the boundary: the
emitted chunks and the state left at the boundary.  Structured one inbound
chunk per step, so that each recursive call consumes exactly one element of
`source`; `bodyRead_drain` below shows it is the iteration of `bodyRead`. -/
def drainFrom (pat : List Nat) (ae : Bool) : List Chunk → List Nat →
    Except String (List Chunk × BoundaryFinder)
  | [], _ => .error "stream ended before a boundary was found"
  | c :: rest, lb =>
    let s := lb ++ c
    match firstOccur? pat s with
    | some i =>
      .ok (if i = 0 then [] else [s.take i], ⟨pat, rest, s.drop i, true, ae⟩)
    | none =>
      let k := maxPS pat s
      match drainFrom pat ae rest (s.drop (s.length - k)) with
      | .ok (cs, fin) =>
        .ok (if s.length - k = 0 then cs else s.take (s.length - k) :: cs, fin)
      | .error e => .error e

/-- Drain the current field's body: every chunk `body_chunk()` yields before it
yields `None`. -/
def drainBody (st : BoundaryFinder) : Except String (List Chunk × BoundaryFinder) :=
  if st.found then .ok ([], st)
  else drainFrom st.boundary st.atEnd st.source st.lookback

/-- Pull inbound chunks into the lookback until it holds at least `n` bytes or
the source is exhausted (used by `consume_boundary` to see the delimiter plus
the two bytes after it). -/
def refill (n : Nat) (st : BoundaryFinder) : BoundaryFinder :=
  if n ≤ st.lookback.length then st
  else
    match h : st.source with
    | [] => st
    | c :: rest => refill n ⟨st.boundary, rest, st.lookback ++ c, st.found, st.atEnd⟩
termination_by st.source.length
decreasing_by simp [h]

/-- Modelled from the spec: `consume_boundary()` (§4.1): advance past the
delimiter itself and its required CRLF, returning `true` when the stream has
more fields and `false` once the terminal `--boundary--` marker is hit;
anything else after the delimiter is a malformed boundary line. -/
def consumeBoundary (st0 : BoundaryFinder) : Except String (Bool × BoundaryFinder) :=
  let st := refill (st0.boundary.length + 2) st0
  if st.boundary.isPrefixOf st.lookback then
    let rest := st.lookback.drop st.boundary.length
    if dashdash.isPrefixOf rest then
      .ok (false, ⟨st.boundary, st.source, rest.drop 2, false, true⟩)
    else if crlfBytes.isPrefixOf rest then
      .ok (true, ⟨st.boundary, st.source, rest.drop 2, false, st.atEnd⟩)
    else
      .error "malformed boundary"
  else
    .error "malformed boundary"

/-! ## `Multipart` construction (`Multipart::with_body`, `server/mod.rs`) -/

/-- The entry point struct (`Multipart`): the boundary scanner plus the
`consumed` flag (the header reader carries no data relevant here). -/
structure Multipart where
  stream : BoundaryFinder
  consumed : Bool
deriving DecidableEq

/-- `Multipart::with_body` (`server/mod.rs` lines 162-173):
`boundary.insert_str(0, "--")` prepends the two hyphens once, then the result
is handed to `BoundaryFinder::new`. -/
def Multipart.with_body (stream : List Chunk) (boundary : List Nat) : Multipart :=
  { stream := BoundaryFinder.new stream (dashdash ++ boundary), consumed := false }

/-! # Theorems

## Text decoder: byte conservation and the limit invariant -/

/-- Whenever the no-pending step accepts a chunk, all its bytes land in the
accumulator or the held-back tail, and the running total obeys the limit. -/
theorem feedNoPrev_next {st st' : ReadTextField} {c : Chunk}
    (hp : st.prev_chunk = none) (h : feedNoPrev st c = .next st') :
    st'.accum ++ prevB st'.prev_chunk = st.accum ++ c ∧
    st'.accum.length + (prevB st'.prev_chunk).length = st.accum.length + c.length ∧
    st.accum.length + c.length ≤ st.limit ∧
    st'.limit = st.limit ∧ st'.stream = st.stream ∧ st'.headers = st.headers := by
  unfold feedNoPrev at h
  split at h
  · exact absurd h (by simp)
  next hlim =>
    split at h
    · cases h
      simp [hp, prevB]
      omega
    · split at h
      · cases h
        refine ⟨?_, ?_, by omega, rfl, rfl, rfl⟩
        · simp [prevB, List.append_assoc]
        · simp [prevB]
          omega
      · exact absurd h (by simp)

/-- Byte conservation and the limit invariant for a full loop iteration:
the held-back tail, the recombined sequence and the fresh chunk are all
accounted for. -/
theorem feedChunk_next {st st' : ReadTextField} {c : Chunk}
    (h : feedChunk st c = .next st') :
    st'.accum ++ prevB st'.prev_chunk = st.accum ++ prevB st.prev_chunk ++ c ∧
    st'.accum.length + (prevB st'.prev_chunk).length =
      st.accum.length + (prevB st.prev_chunk).length + c.length ∧
    st'.accum.length + (prevB st'.prev_chunk).length ≤ st.limit ∧
    st'.limit = st.limit ∧ st'.stream = st.stream ∧ st'.headers = st.headers := by
  unfold feedChunk at h
  cases hpc : st.prev_chunk with
  | none =>
    rw [hpc] at h
    obtain ⟨h1, h2, h3, h4, h5, h6⟩ := feedNoPrev_next hpc h
    exact ⟨by simpa [prevB] using h1, by simpa [prevB] using h2, by omega, h4, h5, h6⟩
  | some prev =>
    rw [hpc] at h
    cases prev with
    | nil => exact absurd h (by simp)
    | cons p0 pr =>
      simp only at h
      split at h
      · exact absurd h (by simp)
      next hneed =>
        split at h
        · exact absurd h (by simp)
        · split at h
          · exact absurd h (by simp)
          · split at h
            · exact absurd h (by simp)
            · split at h
              next hseq =>
                obtain ⟨h1, h2, h3, h4, h5, h6⟩ := feedNoPrev_next rfl h
                simp only [prevB] at *
                refine ⟨?_, ?_, ?_, h4, h5, h6⟩
                · rw [h1]
                  simp [List.append_assoc]
                · simp only [List.length_append, List.length_take,
                    List.length_drop] at h2 ⊢
                  omega
                · simp only [List.length_append, List.length_take,
                    List.length_drop] at h2
                  omega
              · exact absurd h (by simp)

/-- Byte conservation and the limit invariant over a whole chunk list. -/
theorem foldChunks_next {st : ReadTextField} :
    ∀ {cs : List Chunk} {st' : ReadTextField}, foldChunks st cs = .next st' →
    st.accum.length + (prevB st.prev_chunk).length ≤ st.limit →
    st'.accum ++ prevB st'.prev_chunk = st.accum ++ prevB st.prev_chunk ++ cs.flatten ∧
    st'.accum.length + (prevB st'.prev_chunk).length ≤ st.limit ∧
    st'.limit = st.limit ∧ st'.stream = st.stream ∧ st'.headers = st.headers := by
  intro cs
  induction cs generalizing st with
  | nil =>
    intro st' h hinv
    cases h
    simpa using hinv
  | cons c cs ih =>
    intro st' h hinv
    unfold foldChunks at h
    cases hf : feedChunk st c with
    | next st1 =>
      rw [hf] at h
      obtain ⟨g1, g2, g3, g4, g5, g6⟩ := feedChunk_next hf
      obtain ⟨i1, i2, i3, i4, i5⟩ := ih h (by omega)
      refine ⟨?_, by omega, by rw [i3, g4], by rw [i4, g5], by rw [i5, g6]⟩
      rw [i1, g1]
      simp [List.append_assoc]
    | err m => rw [hf] at h; exact absurd h (by simp)
    | panicked m => rw [hf] at h; exact absurd h (by simp)

/-- C3: the UTF-8 round-trip property fails on the code.  The two-byte string
`"é"` (`C3 A9`) split at offset 1 is rejected: the first chunk has length 1,
`len - 4` underflows `usize`, so the suffix is not held back and a UTF-8 error
is returned.  Splitting `"aaaé"` at offset 4 instead reaches the recombination
path, whose `copy_from_slice` destination (`4 - prev.len()` bytes) mismatches
its 1-byte source for this 2-byte sequence and panics. -/
theorem utf8RoundTripBroken :
    utf8Valid [0xC3, 0xA9] = true ∧
    pollReadText (read_text "f" [[0xC3], [0xA9]]) = .err "invalid UTF-8 sequence" ∧
    utf8Valid [0x61, 0x61, 0x61, 0xC3, 0xA9] = true ∧
    pollReadText (read_text "f" [[0x61, 0x61, 0x61, 0xC3], [0xA9]]) =
      .panicked "copy_from_slice length mismatch" := by
  decide

/-- C4 counterexample: a valid-UTF-8 text field of 3 bytes with limit 2
exceeds the configured limit, but the decoder reports a UTF-8 decode error,
not the limit-exceeded error, because the 1-byte first chunk trips the
`len - 4` underflow before any limit check can fire. -/
theorem limitErrorPreempted :
    utf8Valid [0xC3, 0xA9, 0x61] = true ∧
    2 < ([0xC3, 0xA9, 0x61] : List Nat).length ∧
    pollReadText ((read_text "f" [[0xC3], [0xA9], [0x61]]).setLimit 2) =
      .err "invalid UTF-8 sequence" ∧
    (.err "invalid UTF-8 sequence" : TextPoll) ≠ .err "text field exceeded limit" := by
  decide

/-- C4 (amended): the decoder never silently truncates — a successful read
returns exactly the field's bytes and never more than the limit, and a body
longer than the limit never succeeds (it fails, with the limit-exceeded error
whenever processing reaches a limit check, though a UTF-8 decode error or
recombination panic can preempt it). -/
theorem limitNeverExceeded (hdrs : String) (chunks : List Chunk) (lim : Nat) :
    (∀ tf stf, pollReadText ((read_text hdrs chunks).setLimit lim) = .ready tf stf →
       tf.text = chunks.flatten ∧ tf.text.length ≤ lim) ∧
    (lim < chunks.flatten.length →
       ∀ tf stf, pollReadText ((read_text hdrs chunks).setLimit lim) ≠ .ready tf stf) := by
  have main : ∀ tf stf, pollReadText ((read_text hdrs chunks).setLimit lim) = .ready tf stf →
      tf.text = chunks.flatten ∧ tf.text.length ≤ lim := by
    intro tf stf h
    simp only [pollReadText, read_text, ReadTextField.setLimit] at h
    cases hfold : foldChunks
        { stream := some chunks, accum := [], prev_chunk := none,
          limit := lim, headers := hdrs } chunks with
    | next st' =>
      simp only [hfold] at h
      obtain ⟨c1, c2, _, _, _⟩ := foldChunks_next hfold (by simp [prevB])
      cases hpc : st'.prev_chunk with
      | some p => simp only [tryTakeString, hpc] at h; exact absurd h (by simp)
      | none =>
        simp only [tryTakeString, hpc] at h
        simp only [TextPoll.ready.injEq] at h
        obtain ⟨htf, _⟩ := h
        rw [hpc, prevB] at c1 c2
        simp only [List.append_nil, List.nil_append] at c1 c2
        subst htf
        refine ⟨c1, ?_⟩
        show st'.accum.length ≤ lim
        simp only [List.length_nil] at c2
        omega
    | err m => simp only [hfold] at h; exact absurd h (by simp)
    | panicked m => simp only [hfold] at h; exact absurd h (by simp)
  refine ⟨main, ?_⟩
  intro hlong tf stf h
  obtain ⟨h1, h2⟩ := main tf stf h
  rw [h1] at h2
  omega

/-- C4 witness: a one-byte ASCII field under the default limit round-trips. -/
theorem limitNeverExceededWitness :
    ([0x61] : List Nat) = [([0x61] : Chunk)].flatten ∧ ([0x61] : List Nat).length ≤ 65536 :=
  (limitNeverExceeded "f" [[0x61]] 65536).1 ⟨"f", [0x61]⟩
    ⟨none, [], none, 65536, "f"⟩ (by decide)

/-- C5: if the body ends while a held-back partial UTF-8 sequence is still
pending, the decoder fails with the incomplete-sequence error (never silently
dropping the tail); otherwise it returns the accumulated string. -/
theorem incompleteTailRejected (st st' : ReadTextField) (chunks : List Chunk)
    (hs : st.stream = some chunks) (hf : foldChunks st chunks = .next st') :
    (st'.prev_chunk ≠ none →
       pollReadText st = .err "stream terminated with incomplete UTF-8 sequence") ∧
    (st'.prev_chunk = none →
       pollReadText st =
         .ready ⟨st'.headers, st'.accum⟩ { st' with stream := none, accum := [] }) := by
  constructor
  · intro hp
    cases hpc : st'.prev_chunk with
    | none => exact absurd hpc hp
    | some p => simp only [pollReadText, hs, hf, tryTakeString, hpc]
  · intro hp
    simp only [pollReadText, hs, hf, tryTakeString, hp]

/-- C5 witness: a field ending in the lone lead byte of a 2-byte sequence is
rejected with the incomplete-sequence error. -/
theorem incompleteTailRejectedWitness :
    pollReadText (read_text "f" [[0x61, 0x61, 0x61, 0xC3]]) =
      .err "stream terminated with incomplete UTF-8 sequence" :=
  (incompleteTailRejected (read_text "f" [[0x61, 0x61, 0x61, 0xC3]])
    ⟨some [[0x61, 0x61, 0x61, 0xC3]], [0x61, 0x61, 0x61], some [0xC3], 65536, "f"⟩
    [[0x61, 0x61, 0x61, 0xC3]] rfl (by decide)).1 (by decide)

/-- C6: on a chunk shorter than 4 bytes whose UTF-8 validation fails, the code
does not hold the invalid suffix back even though the valid prefix ends within
3 bytes of the chunk's end: `next_chunk.len() - 4` underflows `usize` (a panic
in debug builds; in release it wraps, the hold-back comparison is false), and a
UTF-8 decode error is returned instead. -/
theorem shortChunkHoldbackBroken :
    utf8ValidUpTo [0xC3] = 0 ∧
    ([0xC3] : List Nat).length ≤ 0 + 3 ∧
    feedChunk (read_text "f" []) [0xC3] = .err "invalid UTF-8 sequence" := by
  decide

/-- C7: `Multipart::with_body` stores the boundary as the byte string `--`
prepended (exactly once) to the caller's value, before any parsing begins
(`consumed` starts false, the scanner's lookback empty). -/
theorem withBodyPrependsDashes (stream : List Chunk) (boundary : List Nat) :
    (Multipart.with_body stream boundary).stream.boundary = 0x2D :: 0x2D :: boundary ∧
    (Multipart.with_body stream boundary).consumed = false ∧
    (Multipart.with_body stream boundary).stream.lookback = [] :=
  ⟨rfl, rfl, rfl⟩

/-- C8: `read_text` starts with the default limit 65536; `set_limit` replaces
it with the caller's value (any value — no hard maximum is enforced); and
`limit_soft_max` sets the documented soft ceiling 16777216. -/
theorem textLimitConfiguration :
    (∀ hdrs data, (read_text hdrs data).limit = 65536) ∧
    (∀ (st : ReadTextField) (n : Nat), (st.setLimit n).limit = n) ∧
    (∀ st : ReadTextField, st.limitSoftMax.limit = 16777216) :=
  ⟨fun _ _ => rfl, fun _ _ => rfl, fun _ => rfl⟩

/-- C9: a `ReadTextField` that has yielded its value has `stream = None`
(set exactly when it returns `Ready`), and polling such a future panics with
the documented message instead of returning a value. -/
theorem pollAfterYieldPanics :
    (∀ st : ReadTextField, st.stream = none →
       pollReadText st =
         .panicked "`ReadTextField::poll()` called again after yielding value") ∧
    (∀ st tf st', pollReadText st = .ready tf st' → st'.stream = none) := by
  constructor
  · intro st h
    unfold pollReadText
    rw [h]
  · intro st tf st' h
    cases hs : st.stream with
    | none => simp only [pollReadText, hs] at h; exact absurd h (by simp)
    | some chunks =>
      simp only [pollReadText, hs] at h
      cases hf : foldChunks st chunks with
      | next st1 =>
        simp only [hf] at h
        cases hpc : st1.prev_chunk with
        | some p =>
          simp only [tryTakeString, hpc] at h
          exact absurd h (by simp)
        | none =>
          simp only [tryTakeString, hpc] at h
          simp only [TextPoll.ready.injEq] at h
          rw [← h.2]
      | err m => simp only [hf] at h; exact absurd h (by simp)
      | panicked m => simp only [hf] at h; exact absurd h (by simp)

/-- C9 witness: polling a completed decoder panics. -/
theorem pollAfterYieldPanicsWitness :
    pollReadText ⟨none, [], none, 65536, "f"⟩ =
      .panicked "`ReadTextField::poll()` called again after yielding value" :=
  pollAfterYieldPanics.1 ⟨none, [], none, 65536, "f"⟩ rfl

/-- C10: `poll_field_head` resumes without losing progress: (a) with
`consumed` set it goes straight to the header read, never re-consuming the
boundary; (b) after `consume_boundary` reports more fields and the header read
is `NotReady`, its result is `NotReady` with `consumed` kept `true`; (c) with
`consumed` set, the flag is cleared exactly when the header read returns
`Ready`; (d) once the scanner's terminal flag is set (and no field is pending
consumption) it returns `Ready(None)` with the state unchanged — hence `None`
permanently. -/
theorem pollFieldHeadResumable (m : MultipartCtl) :
    (m.consumed = true → (pollFieldHead m).2.2 = [HeadOp.readHeadersOp]) ∧
    (∀ bf' h', m.consumed = false →
       m.stream.consume = (.ready true, bf') →
       m.read_hdr.read = (.notReady, h') →
       (pollFieldHead m).1 = .notReady ∧ (pollFieldHead m).2.1.consumed = true) ∧
    (m.consumed = true →
       ((pollFieldHead m).2.1.consumed = false ↔
          ∃ res, (pollFieldHead m).1 = .ready res)) ∧
    (m.stream.terminal = true → m.consumed = false →
       pollFieldHead m = (.ready none, m, [HeadOp.consumeBoundaryOp])) := by
  refine ⟨?_, ?_, ?_, ?_⟩
  · intro hc
    rcases hr : m.read_hdr.read with ⟨a, h2⟩
    cases a <;> simp [pollFieldHead, hc, readHeadersPart, hr]
  · intro bf' h' hc hcb hhr
    simp [pollFieldHead, hc, hcb, readHeadersPart, hhr]
  · intro hc
    rcases hr : m.read_hdr.read with ⟨a, h2⟩
    cases a with
    | ready res => simp [pollFieldHead, hc, readHeadersPart, hr]
    | notReady => simp [pollFieldHead, hc, readHeadersPart, hr]
    | failed e => simp [pollFieldHead, hc, readHeadersPart, hr]
  · intro ht hc
    obtain ⟨⟨steps, term⟩, hdr, cons⟩ := m
    simp only at ht hc
    subst ht
    subst hc
    simp [pollFieldHead, BoundaryOracle.consume]

/-- C10 witness: the three reachable scenarios at concrete states — resumed
call with `consumed` set, boundary consumed but headers pending, and the
terminal state. -/
theorem pollFieldHeadResumableWitness :
    (pollFieldHead ⟨⟨[], false⟩, ⟨[]⟩, true⟩).2.2 = [HeadOp.readHeadersOp] ∧
    ((pollFieldHead ⟨⟨[.more], false⟩, ⟨[]⟩, false⟩).1 = .notReady ∧
       (pollFieldHead ⟨⟨[.more], false⟩, ⟨[]⟩, false⟩).2.1.consumed = true) ∧
    pollFieldHead ⟨⟨[], true⟩, ⟨[]⟩, false⟩ =
      (.ready none, ⟨⟨[], true⟩, ⟨[]⟩, false⟩, [HeadOp.consumeBoundaryOp]) :=
  ⟨(pollFieldHeadResumable _).1 rfl,
   (pollFieldHeadResumable _).2.1 ⟨[], false⟩ ⟨[]⟩ rfl rfl rfl,
   (pollFieldHeadResumable _).2.2.2 rfl rfl⟩

/-- Reachable states of the field stream keep the strong count of the shared
`Inner` at 1 (no field outstanding) or 2 (exactly one `FieldData` alive). -/
theorem runOps_strong (ops : List SysOp) :
    ∀ s : StreamSys, s.strong = 1 ∨ s.strong = 2 →
    (runOps s ops).strong = 1 ∨ (runOps s ops).strong = 2 := by
  induction ops with
  | nil => intro s h; exact h
  | cons op rest ih =>
    intro s h
    cases op with
    | doPoll t =>
      simp only [runOps]
      apply ih
      rcases h with h1 | h2
      · rcases hp : pollFieldHead s.multi with ⟨a, m', tr⟩
        cases a with
        | ready v => cases v <;> simp [streamPoll, h1, hp]
        | notReady => simp [streamPoll, h1, hp]
        | failed e => simp [streamPoll, h1, hp]
      · simp [streamPoll, h2]
    | doDrop =>
      simp only [runOps]
      apply ih
      unfold dropFieldData
      rcases h with h1 | h2
      · simp [h1]
      · simp [h2]

/-- C1: exclusive access to the parser. (a) From a fresh stream, any schedule
of polls and field destructions leaves at most one `FieldData` alive. (b) While
one is alive (strong count 2), a poll yields `NotReady` — never a second field,
never a panic — and records the polling task. (c) Destroying the `FieldData`
restores exclusive access and notifies the recorded task. (d) With exclusive
access restored, the next poll really advances `poll_field_head` (reads the
next field's headers), yielding a field when headers arrive. -/
theorem singleLiveFieldData :
    (∀ (m : MultipartCtl) (ops : List SysOp),
       (runOps (initSys m) ops).liveFields ≤ 1) ∧
    (∀ (s : StreamSys) (t : Nat), s.strong = 2 →
       streamPoll s t = (.notReady, { s with waiting := some t })) ∧
    (∀ (s : StreamSys) (t : Nat), s.strong = 2 → s.waiting = some t →
       (dropFieldData s).strong = 1 ∧ t ∈ (dropFieldData s).notified ∧
       (dropFieldData s).waiting = none) ∧
    (∀ (s : StreamSys) (t : Nat), s.strong = 1 →
       (streamPoll s t).2.multi = (pollFieldHead s.multi).2.1 ∧
       (∀ h, (pollFieldHead s.multi).1 = .ready (some h) →
          (streamPoll s t).1 = .gotField h)) := by
  refine ⟨?_, ?_, ?_, ?_⟩
  · intro m ops
    have := runOps_strong ops (initSys m) (Or.inl rfl)
    unfold StreamSys.liveFields
    omega
  · intro s t h
    simp [streamPoll, h]
  · intro s t h hw
    simp [dropFieldData, h, hw, Option.toList]
  · intro s t h
    rcases hp : pollFieldHead s.multi with ⟨a, m', tr⟩
    cases a with
    | ready v => cases v <;> simp [streamPoll, h, hp]
    | notReady => simp [streamPoll, h, hp]
    | failed e => simp [streamPoll, h, hp]

/-- C1 witness: a concrete run — poll yields a field (strong count 2), a
second poll is `NotReady` and records task 5, dropping the field notifies it. -/
theorem singleLiveFieldDataWitness :
    (runOps (initSys ⟨⟨[.more], false⟩, ⟨[.ready (some ⟨"a"⟩)]⟩, false⟩)
        [SysOp.doPoll 0]).liveFields ≤ 1 ∧
    streamPoll ⟨⟨⟨[], false⟩, ⟨[]⟩, false⟩, none, 2, []⟩ 5 =
      (.notReady, ⟨⟨⟨[], false⟩, ⟨[]⟩, false⟩, some 5, 2, []⟩) ∧
    (dropFieldData ⟨⟨⟨[], false⟩, ⟨[]⟩, false⟩, some 7, 2, []⟩).strong = 1 ∧
    7 ∈ (dropFieldData ⟨⟨⟨[], false⟩, ⟨[]⟩, false⟩, some 7, 2, []⟩).notified :=
  ⟨singleLiveFieldData.1 _ _,
   singleLiveFieldData.2.1 _ 5 rfl,
   (singleLiveFieldData.2.2.1 _ 7 rfl rfl).1,
   (singleLiveFieldData.2.2.1 _ 7 rfl rfl).2.1⟩

/-! ## Substring-occurrence toolbox for the boundary scanner -/

/-- Bridge between executable `List.isPrefixOf` and the `<+:` relation. -/
theorem isPrefixOf_eq {p l : List Nat} : p.isPrefixOf l = true ↔ p <+: l :=
  List.isPrefixOf_iff_prefix

/-- `firstOccur?` reports a position at which `pat` really occurs. -/
theorem firstOccur_some_hit {pat : List Nat} :
    ∀ {s : List Nat} {i : Nat}, firstOccur? pat s = some i → pat <+: s.drop i := by
  intro s
  induction s with
  | nil =>
    intro i h
    simp only [firstOccur?] at h
    split at h
    next hp =>
      cases h
      simpa using isPrefixOf_eq.mp hp
    · exact absurd h (by simp)
  | cons b t ih =>
    intro i h
    simp only [firstOccur?] at h
    split at h
    next hp =>
      cases h
      simpa using isPrefixOf_eq.mp hp
    next hp =>
      rw [Option.map_eq_some'] at h
      obtain ⟨j, hj, hji⟩ := h
      subst hji
      simpa using ih hj

/-- `firstOccur?` reports the least such position. -/
theorem firstOccur_some_min {pat : List Nat} :
    ∀ {s : List Nat} {i : Nat}, firstOccur? pat s = some i →
      ∀ j, j < i → ¬ pat <+: s.drop j := by
  intro s
  induction s with
  | nil =>
    intro i h j hj
    simp only [firstOccur?] at h
    split at h
    · cases h; omega
    · exact absurd h (by simp)
  | cons b t ih =>
    intro i h j hj
    simp only [firstOccur?] at h
    split at h
    next hp => cases h; omega
    next hp =>
      rw [Option.map_eq_some'] at h
      obtain ⟨j', hj', hji⟩ := h
      subst hji
      cases j with
      | zero =>
        intro hc
        exact hp (isPrefixOf_eq.mpr (by simpa using hc))
      | succ j0 =>
        simpa using ih hj' j0 (by omega)

/-- When `firstOccur?` finds nothing, `pat` occurs nowhere. -/
theorem firstOccur_none {pat : List Nat} (hp : pat ≠ []) :
    ∀ {s : List Nat}, firstOccur? pat s = none → ∀ j, ¬ pat <+: s.drop j := by
  intro s
  induction s with
  | nil =>
    intro _ j hc
    simp only [List.drop_nil] at hc
    exact hp (List.prefix_nil.mp hc)
  | cons b t ih =>
    intro h j
    simp only [firstOccur?] at h
    split at h
    · exact absurd h (by simp)
    next hpre =>
      rw [Option.map_eq_none'] at h
      cases j with
      | zero =>
        intro hc
        exact hpre (isPrefixOf_eq.mpr (by simpa using hc))
      | succ j0 => simpa using ih h j0

/-- Characterisation used to translate an occurrence through `drop`. -/
theorem firstOccur_eq_some {pat : List Nat} :
    ∀ {s : List Nat} {i : Nat}, pat <+: s.drop i →
      (∀ j, j < i → ¬ pat <+: s.drop j) → firstOccur? pat s = some i := by
  intro s
  induction s with
  | nil =>
    intro i h1 h2
    simp only [List.drop_nil] at h1
    have hi : i = 0 := by
      by_contra hi0
      exact h2 0 (by omega) (by simpa using h1)
    subst hi
    simp only [firstOccur?]
    rw [if_pos (isPrefixOf_eq.mpr (by simpa using h1))]
  | cons b t ih =>
    intro i h1 h2
    cases i with
    | zero =>
      simp only [firstOccur?]
      rw [if_pos (isPrefixOf_eq.mpr (by simpa using h1))]
    | succ i0 =>
      have hnp : ¬ pat <+: (b :: t) := by simpa using h2 0 (by omega)
      simp only [firstOccur?]
      rw [if_neg (fun hc => hnp (isPrefixOf_eq.mp hc))]
      rw [ih (by simpa using h1) (fun j hj => by simpa using h2 (j + 1) (by omega))]
      rfl

/-- A found position is within the haystack. -/
theorem firstOccur_le_length {pat : List Nat} :
    ∀ {s : List Nat} {i : Nat}, firstOccur? pat s = some i → i ≤ s.length := by
  intro s
  induction s with
  | nil =>
    intro i h
    simp only [firstOccur?] at h
    split at h
    · cases h; omega
    · exact absurd h (by simp)
  | cons b t ih =>
    intro i h
    simp only [firstOccur?] at h
    split at h
    · cases h; omega
    · rw [Option.map_eq_some'] at h
      obtain ⟨j, hj, hji⟩ := h
      subst hji
      have := ih hj
      simp only [List.length_cons]
      omega

/-- A found occurrence lies entirely inside the haystack. -/
theorem firstOccur_fits {pat s : List Nat} {i : Nat}
    (h : firstOccur? pat s = some i) : i + pat.length ≤ s.length := by
  have h1 := (firstOccur_some_hit h).length_le
  have h2 := firstOccur_le_length h
  rw [List.length_drop] at h1
  omega

/-- Occurrence translation through `drop`. -/
theorem firstOccur_drop {pat g : List Nat} {i d : Nat} (hd : d ≤ i)
    (h : firstOccur? pat g = some i) : firstOccur? pat (g.drop d) = some (i - d) := by
  apply firstOccur_eq_some
  · rw [List.drop_drop]
    have he : d + (i - d) = i := by omega
    rw [he]
    exact firstOccur_some_hit h
  · intro j hj hc
    rw [List.drop_drop] at hc
    exact firstOccur_some_min h (d + j) (by omega) hc

/-- The retained tail is no longer than the haystack. -/
theorem maxPS_le (pat : List Nat) : ∀ s : List Nat, maxPS pat s ≤ s.length := by
  intro s
  induction s with
  | nil => simp [maxPS]
  | cons b t ih =>
    simp only [maxPS]
    split
    · exact le_refl _
    · simp only [List.length_cons]
      omega

/-- The retained tail really is a prefix of the pattern. -/
theorem maxPS_pref (pat : List Nat) : ∀ s : List Nat,
    s.drop (s.length - maxPS pat s) <+: pat := by
  intro s
  induction s with
  | nil => simp [maxPS]
  | cons b t ih =>
    simp only [maxPS]
    split
    next hp => simpa using isPrefixOf_eq.mp hp
    next hp =>
      have hm := maxPS_le pat t
      have he : (b :: t).length - maxPS pat t = (t.length - maxPS pat t) + 1 := by
        simp only [List.length_cons]
        omega
      rw [he, List.drop_succ_cons]
      exact ih

/-- No longer suffix of the haystack is a prefix of the pattern. -/
theorem maxPS_max (pat : List Nat) : ∀ (s : List Nat) (k : Nat), k ≤ s.length →
    s.drop (s.length - k) <+: pat → k ≤ maxPS pat s := by
  intro s
  induction s with
  | nil =>
    intro k hk _
    simp only [List.length_nil] at hk
    simp only [maxPS]
    omega
  | cons b t ih =>
    intro k hk h
    simp only [maxPS]
    split
    next hp => exact hk
    next hp =>
      rcases Nat.lt_or_ge k (b :: t).length with hlt | hge
      · have hk' : k ≤ t.length := by
          simp only [List.length_cons] at hlt
          omega
        apply ih k hk'
        have he : (b :: t).length - k = (t.length - k) + 1 := by
          simp only [List.length_cons]
          omega
        rw [he, List.drop_succ_cons] at h
        exact h
      · have hke : k = (b :: t).length := le_antisymm hk hge
        rw [hke, Nat.sub_self, List.drop_zero] at h
        exact absurd (isPrefixOf_eq.mpr h) hp

/-- With no occurrence present, the retained tail is a proper prefix of the
pattern — so the lookback stays under `boundary.len()`. -/
theorem maxPS_lt {pat : List Nat} (hp : pat ≠ []) {s : List Nat}
    (h : firstOccur? pat s = none) : maxPS pat s < pat.length := by
  have h1 := maxPS_pref pat s
  have h2 := maxPS_le pat s
  have hlen : (s.drop (s.length - maxPS pat s)).length = maxPS pat s := by
    rw [List.length_drop]
    omega
  have hle : maxPS pat s ≤ pat.length := by
    have := h1.length_le
    omega
  rcases Nat.lt_or_ge (maxPS pat s) pat.length with hlt | hge
  · exact hlt
  · exfalso
    have heq : s.drop (s.length - maxPS pat s) = pat :=
      h1.eq_of_length (by omega)
    refine firstOccur_none hp h (s.length - maxPS pat s) ?_
    rw [heq]

/-- A prefix of `x ++ y` no longer than `x` is a prefix of `x`. -/
theorem pref_of_append_left {p x y : List Nat} (h : p <+: x ++ y)
    (hl : p.length ≤ x.length) : p <+: x := by
  rw [List.prefix_iff_eq_take] at h ⊢
  rw [List.take_append_of_le_length hl] at h
  exact h

/-- If `p` is a prefix of `x ++ y` at least as long as `x`, then `x` is a
prefix of `p`. -/
theorem append_pref_of_pref {p x y : List Nat} (h : p <+: x ++ y)
    (hl : x.length ≤ p.length) : x <+: p := by
  rw [List.prefix_iff_eq_take] at h ⊢
  rw [h, List.take_take, Nat.min_eq_left hl, List.take_left]

/-- Correctness of draining a field body under arbitrary chunking: with the
first boundary occurrence at byte `i` of the remaining stream, the emitted
chunks are exactly the bytes before `i`, and the scanner stops at the located
boundary with the rest of the stream intact and the full delimiter at the head
of its lookback. -/
theorem drainFrom_spec {pat : List Nat} (hp : pat ≠ []) (ae : Bool) :
    ∀ (src : List Chunk) (lb : List Nat), lb.length < pat.length →
    ∀ i : Nat, firstOccur? pat (lb ++ src.flatten) = some i →
    ∃ out fin, drainFrom pat ae src lb = .ok (out, fin) ∧
      out.flatten = (lb ++ src.flatten).take i ∧
      fin.boundary = pat ∧ fin.found = true ∧ fin.atEnd = ae ∧
      fin.lookback ++ fin.source.flatten = (lb ++ src.flatten).drop i ∧
      pat <+: fin.lookback := by
  have hpl : 0 < pat.length := List.length_pos.mpr hp
  intro src
  induction src with
  | nil =>
    intro lb hlb i hocc
    exfalso
    have h1 := (firstOccur_some_hit hocc).length_le
    have h2 := firstOccur_le_length hocc
    simp only [List.flatten_nil, List.append_nil, List.length_drop] at h1 h2
    omega
  | cons c rest ih =>
    intro lb hlb i hocc
    have hg : lb ++ (c :: rest).flatten = (lb ++ c) ++ rest.flatten := by
      simp [List.append_assoc]
    rw [hg] at hocc ⊢
    cases hfo : firstOccur? pat (lb ++ c) with
    | some j =>
      simp only [drainFrom, hfo]
      have hjpre := firstOccur_some_hit hfo
      have hjfit := firstOccur_fits hfo
      have hjle := firstOccur_le_length hfo
      have hgj : pat <+: ((lb ++ c) ++ rest.flatten).drop j := by
        rw [List.drop_append_of_le_length hjle]
        exact hjpre.trans (List.prefix_append _ _)
      have hij : i = j := by
        have hjge : ¬ j < i := fun hlt => firstOccur_some_min hocc j hlt hgj
        have hipre := firstOccur_some_hit hocc
        rw [List.drop_append_of_le_length (by omega)] at hipre
        have hloc : pat <+: (lb ++ c).drop i :=
          pref_of_append_left hipre (by rw [List.length_drop]; omega)
        have : ¬ i < j := fun hlt => firstOccur_some_min hfo i hlt hloc
        omega
      subst hij
      refine ⟨_, _, rfl, ?_, rfl, rfl, rfl, ?_, ?_⟩
      · by_cases hi0 : i = 0
        · rw [if_pos hi0, hi0]
          simp
        · rw [if_neg hi0]
          simp only [List.flatten_cons, List.flatten_nil, List.append_nil]
          rw [List.take_append_of_le_length hjle]
      · simp only
        rw [List.drop_append_of_le_length hjle]
      · exact hjpre
    | none =>
      simp only [drainFrom, hfo]
      set s : List Nat := lb ++ c with hsdef
      set k : Nat := maxPS pat s with hkdef
      set d : Nat := s.length - k with hddef
      have hknl : k < pat.length := maxPS_lt hp hfo
      have hkle : k ≤ s.length := maxPS_le pat s
      have hdle : d ≤ i := by
        by_contra hdi
        push_neg at hdi
        have hipre := firstOccur_some_hit hocc
        have hile : i ≤ s.length := by omega
        rw [List.drop_append_of_le_length hile] at hipre
        rcases Nat.lt_or_ge s.length (i + pat.length) with hbig | hsmall
        · have hsuf : s.drop i <+: pat :=
            append_pref_of_pref hipre (by rw [List.length_drop]; omega)
          have hmx := maxPS_max pat s (s.length - i) (by omega) ?_
          · omega
          · have he : s.length - (s.length - i) = i := by omega
            rw [he]
            exact hsuf
        · have hloc : pat <+: s.drop i :=
            pref_of_append_left hipre (by rw [List.length_drop]; omega)
          exact firstOccur_none hp hfo i hloc
      have hocc' : firstOccur? pat (s.drop d ++ rest.flatten) = some (i - d) := by
        have hdrop := firstOccur_drop hdle hocc
        rw [List.drop_append_of_le_length (by omega)] at hdrop
        exact hdrop
      obtain ⟨out, fin, heq, hjoin, hbnd, hfnd, hae2, hrem, hpre2⟩ :=
        ih (s.drop d) (by rw [List.length_drop]; omega) (i - d) hocc'
      rw [heq]
      have hsplit : (s ++ rest.flatten).drop d = s.drop d ++ rest.flatten :=
        List.drop_append_of_le_length (by omega)
      have htake : (s ++ rest.flatten).take i =
          s.take d ++ (s.drop d ++ rest.flatten).take (i - d) := by
        conv_lhs => rw [show i = d + (i - d) by omega]
        rw [List.take_add, List.take_append_of_le_length (show d ≤ s.length by omega),
            hsplit]
      have hdrop2 : (s ++ rest.flatten).drop i =
          (s.drop d ++ rest.flatten).drop (i - d) := by
        rw [← hsplit, List.drop_drop]
        congr 1
        omega
      refine ⟨_, fin, rfl, ?_, hbnd, hfnd, hae2, ?_, hpre2⟩
      · by_cases hd0 : d = 0
        · rw [if_pos hd0, hjoin, htake, hd0]
          simp
        · rw [if_neg hd0]
          simp only [List.flatten_cons]
          rw [hjoin, htake]
      · rw [hrem, hdrop2]

/-- A prefix stays a prefix of a long-enough `take`. -/
theorem pref_take_of_pref {p l : List Nat} {n : Nat} (h : p <+: l)
    (hn : p.length ≤ n) : p <+: l.take n := by
  rw [List.prefix_iff_eq_take] at h ⊢
  rw [List.take_take, Nat.min_eq_left hn]
  exact h

/-- `refill` preserves every mode field and the remaining bytes, and stops only
with the requested count in the lookback or the source exhausted. -/
theorem refill_spec (n : Nat) (pat : List Nat) (fo ae : Bool) :
    ∀ (src : List Chunk) (lb : List Nat),
      (refill n ⟨pat, src, lb, fo, ae⟩).boundary = pat ∧
      (refill n ⟨pat, src, lb, fo, ae⟩).found = fo ∧
      (refill n ⟨pat, src, lb, fo, ae⟩).atEnd = ae ∧
      (refill n ⟨pat, src, lb, fo, ae⟩).lookback ++
          (refill n ⟨pat, src, lb, fo, ae⟩).source.flatten = lb ++ src.flatten ∧
      ((refill n ⟨pat, src, lb, fo, ae⟩).source = [] ∨
        n ≤ (refill n ⟨pat, src, lb, fo, ae⟩).lookback.length) := by
  intro src
  induction src with
  | nil =>
    intro lb
    rw [refill]
    split <;> simp
  | cons c rest ih =>
    intro lb
    rw [refill]
    split
    next hle => exact ⟨rfl, rfl, rfl, rfl, Or.inr hle⟩
    next hgt =>
      simp only []
      obtain ⟨i1, i2, i3, i4, i5⟩ := ih (lb ++ c)
      refine ⟨i1, i2, i3, ?_, i5⟩
      rw [i4]
      simp [List.append_assoc]

/-- After `refill`, the delimiter and the two bytes following it are visible in
the lookback (or the stream is exhausted into it), with the remaining bytes
unchanged. -/
theorem consume_core {pat lb t : List Nat} {src : List Chunk} {fo ae : Bool}
    (hrem : lb ++ src.flatten = pat ++ t) :
    ∃ lk src',
      refill (pat.length + 2) ⟨pat, src, lb, fo, ae⟩ = ⟨pat, src', lk, fo, ae⟩ ∧
      pat.isPrefixOf lk = true ∧
      (lk.drop pat.length).take 2 = t.take 2 ∧
      (lk.drop pat.length).drop 2 ++ src'.flatten = t.drop 2 := by
  obtain ⟨r1, r2, r3, r4, r5⟩ := refill_spec (pat.length + 2) pat fo ae src lb
  rcases hR : refill (pat.length + 2) ⟨pat, src, lb, fo, ae⟩ with ⟨Rb, Rs, Rl, Rf, Ra⟩
  rw [hR] at r1 r2 r3 r4 r5
  simp only at r1 r2 r3 r4 r5
  have hrem2 : Rl ++ Rs.flatten = pat ++ t := by rw [r4, hrem]
  refine ⟨Rl, Rs, by rw [r1, r2, r3], ?_, ?_, ?_⟩
  · rcases r5 with hsrc | hlong
    · subst hsrc
      simp only [List.flatten_nil, List.append_nil] at hrem2
      subst hrem2
      exact isPrefixOf_eq.mpr (List.prefix_append _ _)
    · have hRl : Rl = (pat ++ t).take Rl.length :=
        List.prefix_iff_eq_take.mp ⟨Rs.flatten, hrem2⟩
      rw [hRl]
      exact isPrefixOf_eq.mpr (pref_take_of_pref (List.prefix_append _ _) (by omega))
  · rcases r5 with hsrc | hlong
    · subst hsrc
      simp only [List.flatten_nil, List.append_nil] at hrem2
      subst hrem2
      rw [List.drop_left]
    · have hRl : Rl = (pat ++ t).take Rl.length :=
        List.prefix_iff_eq_take.mp ⟨Rs.flatten, hrem2⟩
      rw [hRl, List.drop_take, List.drop_left, List.take_take]
      congr 1
      omega
  · rcases r5 with hsrc | hlong
    · subst hsrc
      simp only [List.flatten_nil, List.append_nil] at hrem2
      subst hrem2
      simp only [List.flatten_nil, List.append_nil]
      rw [List.drop_left]
    · rw [List.drop_drop, ← List.drop_append_of_le_length hlong, hrem2,
        ← List.drop_drop, List.drop_left]

/-- `consume_boundary` at a located boundary whose delimiter heads the
remaining bytes: it advances past the delimiter and the required CRLF and
reports more fields (`true`), or recognises the terminal `--` and reports
`false` setting the terminal flag. -/
theorem consumeBoundary_spec {st : BoundaryFinder} {t : List Nat}
    (hrem : st.lookback ++ st.source.flatten = st.boundary ++ t) :
    (crlfBytes <+: t →
       ∃ st', consumeBoundary st = .ok (true, st') ∧
         st'.boundary = st.boundary ∧ st'.found = false ∧ st'.atEnd = st.atEnd ∧
         st'.lookback ++ st'.source.flatten = t.drop 2) ∧
    (dashdash <+: t →
       ∃ st', consumeBoundary st = .ok (false, st') ∧
         st'.boundary = st.boundary ∧ st'.found = false ∧ st'.atEnd = true ∧
         st'.lookback ++ st'.source.flatten = t.drop 2) := by
  obtain ⟨pat, src, lb, fo, ae⟩ := st
  simp only at hrem ⊢
  obtain ⟨lk, src', hR, hpatp, htake2, hdrop2⟩ := @consume_core pat lb t src fo ae hrem
  constructor
  · intro hcr
    have hcrtake : crlfBytes = t.take 2 := List.prefix_iff_eq_take.mp hcr
    have hdd : dashdash.isPrefixOf (lk.drop pat.length) = false := by
      rcases hb : dashdash.isPrefixOf (lk.drop pat.length) with _ | _
      · rfl
      · exfalso
        have hd2 : dashdash = (lk.drop pat.length).take 2 :=
          List.prefix_iff_eq_take.mp (isPrefixOf_eq.mp hb)
        rw [htake2, ← hcrtake] at hd2
        exact absurd hd2 (by decide)
    have hcrp : crlfBytes.isPrefixOf (lk.drop pat.length) = true := by
      refine isPrefixOf_eq.mpr (List.prefix_iff_eq_take.mpr ?_)
      show crlfBytes = (lk.drop pat.length).take 2
      rw [htake2, ← hcrtake]
    refine ⟨⟨pat, src', (lk.drop pat.length).drop 2, false, ae⟩, ?_, rfl, rfl, rfl, hdrop2⟩
    simp only [consumeBoundary, hR, hpatp, hdd, hcrp]
    simp
  · intro hdd0
    have hddtake : dashdash = t.take 2 := List.prefix_iff_eq_take.mp hdd0
    have hddp : dashdash.isPrefixOf (lk.drop pat.length) = true := by
      refine isPrefixOf_eq.mpr (List.prefix_iff_eq_take.mpr ?_)
      show dashdash = (lk.drop pat.length).take 2
      rw [htake2, ← hddtake]
    refine ⟨⟨pat, src', (lk.drop pat.length).drop 2, false, true⟩, ?_, rfl, rfl, rfl, hdrop2⟩
    simp only [consumeBoundary, hR, hpatp, hddp]
    simp

/-- C2: the modelled `BoundaryFinder` meets its contract under any chunking.
With the delimiter first occurring at byte `i` of the stream, the
`body_chunk()` calls yield exactly the body bytes before the delimiter
(truncated exactly at its first byte, wherever the chunk seams fall), then
yield `None`; `consume_boundary()` then advances past the delimiter and its
required CRLF returning `true` when more fields follow, and returns `false`
on the terminal `--boundary--` double dash. -/
theorem boundaryFinderContract {pat : List Nat} (hp : pat ≠ [])
    (chunks : List Chunk) (i : Nat)
    (hocc : firstOccur? pat chunks.flatten = some i) :
    ∃ out fin, drainBody (BoundaryFinder.new chunks pat) = .ok (out, fin) ∧
      out.flatten = chunks.flatten.take i ∧
      bodyRead fin = .ok (none, fin) ∧
      fin.lookback ++ fin.source.flatten = chunks.flatten.drop i ∧
      (crlfBytes <+: chunks.flatten.drop (i + pat.length) →
        ∃ st', consumeBoundary fin = .ok (true, st') ∧
          st'.lookback ++ st'.source.flatten =
            chunks.flatten.drop (i + pat.length + 2)) ∧
      (dashdash <+: chunks.flatten.drop (i + pat.length) →
        ∃ st', consumeBoundary fin = .ok (false, st') ∧ st'.atEnd = true) := by
  obtain ⟨out, fin, heq, hjoin, hbnd, hfnd, hae, hrem, hpre⟩ :=
    drainFrom_spec hp false chunks []
      (by simpa using List.length_pos.mpr hp) i (by simpa using hocc)
  have hjoin' : out.flatten = chunks.flatten.take i := by simpa using hjoin
  have hrem' : fin.lookback ++ fin.source.flatten = chunks.flatten.drop i := by
    simpa using hrem
  have hdropsum : (chunks.flatten.drop i).drop pat.length =
      chunks.flatten.drop (i + pat.length) := List.drop_drop pat.length i chunks.flatten
  have hsplit : chunks.flatten.drop i = pat ++ chunks.flatten.drop (i + pat.length) := by
    obtain ⟨u, hu⟩ := firstOccur_some_hit hocc
    have hu2 : u = chunks.flatten.drop (i + pat.length) := by
      rw [← hdropsum, ← hu, List.drop_left]
    rw [← hu2, hu]
  have hrem2 : fin.lookback ++ fin.source.flatten =
      fin.boundary ++ chunks.flatten.drop (i + pat.length) := by
    rw [hbnd, hrem', hsplit]
  obtain ⟨ccr, cdd⟩ := consumeBoundary_spec hrem2
  refine ⟨out, fin, ?_, hjoin', ?_, hrem', ?_, ?_⟩
  · simp only [drainBody, BoundaryFinder.new]
    simpa using heq
  · rw [bodyRead]
    simp [hfnd]
  · intro hcr
    obtain ⟨st', h1, _, _, _, h5⟩ := ccr hcr
    refine ⟨st', h1, ?_⟩
    rw [h5, List.drop_drop]
  · intro hdd
    obtain ⟨st', h1, _, _, h4, _⟩ := cdd hdd
    exact ⟨st', h1, h4⟩

/-- C2 witness: body `hi` followed by `--B`, CRLF and further bytes, chunked
with the seam inside the delimiter. -/
theorem boundaryFinderContractWitness :
    ∃ out fin,
      drainBody (BoundaryFinder.new [[0x68, 0x69, 0x2D], [0x2D, 0x42, 0x0D, 0x0A, 0x6E]]
        [0x2D, 0x2D, 0x42]) = .ok (out, fin) ∧
      out.flatten = ([[0x68, 0x69, 0x2D], [0x2D, 0x42, 0x0D, 0x0A, 0x6E]] :
        List Chunk).flatten.take 2 ∧
      bodyRead fin = .ok (none, fin) ∧
      fin.lookback ++ fin.source.flatten = ([[0x68, 0x69, 0x2D], [0x2D, 0x42, 0x0D, 0x0A, 0x6E]] :
        List Chunk).flatten.drop 2 ∧
      (crlfBytes <+: ([[0x68, 0x69, 0x2D], [0x2D, 0x42, 0x0D, 0x0A, 0x6E]] :
          List Chunk).flatten.drop (2 + ([0x2D, 0x2D, 0x42] : List Nat).length) →
        ∃ st', consumeBoundary fin = .ok (true, st') ∧
          st'.lookback ++ st'.source.flatten =
            ([[0x68, 0x69, 0x2D], [0x2D, 0x42, 0x0D, 0x0A, 0x6E]] :
              List Chunk).flatten.drop (2 + ([0x2D, 0x2D, 0x42] : List Nat).length + 2)) ∧
      (dashdash <+: ([[0x68, 0x69, 0x2D], [0x2D, 0x42, 0x0D, 0x0A, 0x6E]] :
          List Chunk).flatten.drop (2 + ([0x2D, 0x2D, 0x42] : List Nat).length) →
        ∃ st', consumeBoundary fin = .ok (false, st') ∧ st'.atEnd = true) :=
  boundaryFinderContract (by decide)
    [[0x68, 0x69, 0x2D], [0x2D, 0x42, 0x0D, 0x0A, 0x6E]] 2 (by decide)

end MultipartAsync
